import Mathlib

/-!
# Verification of the github-nginx-hooker allow-list reconciliation core

Shallow embedding of `src/main.rs`: the `AllowList` store (`load`, `update`,
`save`), the per-cycle orchestration `update_cycle`, and the after-update hook
dispatch.  Pure text processing is translated directly from the source; the
environment (file system, network, child processes) is passed in explicitly as
oracle parameters, so every operation is a pure function of its inputs.

CIDR values come from the external `ipnetwork` library, which is not part of
this repository.  Modelled from the spec: a CIDR is an IPv4 or IPv6 network
address plus a prefix length, with structural equality, printed as
`address/len` and parsed from standard textual notation (IPv6 is modelled in
full uncompressed group form; the library additionally accepts and emits the
`::` compressed form, which no claim depends on).
-/

set_option autoImplicit false

namespace GithubNginxHooker

/-! ## Digit rendering and reading (textual CIDR notation) -/

/-- Character for the digit value `d` (decimal digits then lowercase hex). -/
def digitChar (d : Nat) : Char :=
  if d < 10 then Char.ofNat (48 + d) else Char.ofNat (87 + d)

/-- Numeric value of a digit character (decimal, lowercase hex, uppercase hex). -/
def digitVal (c : Char) : Nat :=
  if 48 ≤ c.toNat ∧ c.toNat ≤ 57 then c.toNat - 48
  else if 97 ≤ c.toNat ∧ c.toNat ≤ 102 then c.toNat - 87
  else if 65 ≤ c.toNat ∧ c.toNat ≤ 70 then c.toNat - 55
  else 0

/-- Whether `c` is a digit of base `b` (base 16 admits hex letters of either case). -/
def isDigitB (b : Nat) (c : Char) : Bool :=
  if b = 16 then
    (48 ≤ c.toNat && c.toNat ≤ 57) || (97 ≤ c.toNat && c.toNat ≤ 102)
      || (65 ≤ c.toNat && c.toNat ≤ 70)
  else (48 ≤ c.toNat && c.toNat ≤ 57)

/-- Base-`b` digits of `n`, least significant first, with explicit fuel so the
kernel can evaluate it. -/
def natDigitsRevAux (b : Nat) : Nat → Nat → List Nat
  | 0, _ => []
  | fuel + 1, n => if n = 0 then [] else n % b :: natDigitsRevAux b fuel (n / b)

/-- Base-`b` digits of `n`, least significant first. -/
def natDigitsRev (b n : Nat) : List Nat := natDigitsRevAux b (n + 1) n

/-- Render `n` in base `b` (most significant digit first); `0` renders as `"0"`. -/
def natToStrChars (b n : Nat) : List Char :=
  if n = 0 then ['0'] else ((natDigitsRev b n).map digitChar).reverse

/-- Read a most-significant-first digit string back as a number. -/
def valBE (b : Nat) (cs : List Char) : Nat :=
  cs.foldl (fun a c => a * b + digitVal c) 0

def showNatDec (n : Nat) : List Char := natToStrChars 10 n

def showNatHex (n : Nat) : List Char := natToStrChars 16 n

/-! ## Character-list splitting (the shape of `str::split`) -/

def splitOnCharAux (sep : Char) : List Char → List Char → List (List Char)
  | [], acc => [acc.reverse]
  | c :: rest, acc =>
    if c = sep then acc.reverse :: splitOnCharAux sep rest []
    else splitOnCharAux sep rest (c :: acc)

/-- Split `s` at every occurrence of `sep`, keeping empty pieces. -/
def splitOnChar (sep : Char) (s : List Char) : List (List Char) :=
  splitOnCharAux sep s []

/-! ## The CIDR data model (modelled from the spec, see the file header) -/

structure Ipv4Addr where
  o1 : Fin 256
  o2 : Fin 256
  o3 : Fin 256
  o4 : Fin 256
deriving DecidableEq

structure Ipv6Addr where
  g1 : Fin 65536
  g2 : Fin 65536
  g3 : Fin 65536
  g4 : Fin 65536
  g5 : Fin 65536
  g6 : Fin 65536
  g7 : Fin 65536
  g8 : Fin 65536
deriving DecidableEq

/-- An IPv4 or IPv6 network: address plus prefix length, structural equality. -/
inductive IpNetwork where
  | v4 (addr : Ipv4Addr) (plen : Fin 33)
  | v6 (addr : Ipv6Addr) (plen : Fin 129)
deriving DecidableEq

def Ipv4Addr.display (a : Ipv4Addr) : List Char :=
  showNatDec a.o1.val ++ '.' :: (showNatDec a.o2.val ++ '.' :: (showNatDec a.o3.val
    ++ '.' :: showNatDec a.o4.val))

def Ipv6Addr.display (a : Ipv6Addr) : List Char :=
  showNatHex a.g1.val ++ ':' :: (showNatHex a.g2.val ++ ':' :: (showNatHex a.g3.val
    ++ ':' :: (showNatHex a.g4.val ++ ':' :: (showNatHex a.g5.val
    ++ ':' :: (showNatHex a.g6.val ++ ':' :: (showNatHex a.g7.val
    ++ ':' :: showNatHex a.g8.val))))))

/-- `Display` of a network: `address/len`. -/
def IpNetwork.display : IpNetwork → List Char
  | .v4 a p => a.display ++ '/' :: showNatDec p.val
  | .v6 a p => a.display ++ '/' :: showNatDec p.val

/-- One dotted-decimal octet: 1–3 decimal digits, no leading zero, at most 255. -/
def parseOctet (cs : List Char) : Option (Fin 256) :=
  if cs ≠ [] ∧ cs.length ≤ 3 ∧ cs.all (isDigitB 10) ∧ (cs.head? = some '0' → cs = ['0']) then
    if h : valBE 10 cs < 256 then some ⟨valBE 10 cs, h⟩ else none
  else none

/-- One IPv6 group: 1–4 hex digits (leading zeros allowed). -/
def parseGroup (cs : List Char) : Option (Fin 65536) :=
  if cs ≠ [] ∧ cs.length ≤ 4 ∧ cs.all (isDigitB 16) then
    if h : valBE 16 cs < 65536 then some ⟨valBE 16 cs, h⟩ else none
  else none

/-- A `u8`-style decimal number (used for the prefix length). -/
def parseU8 (cs : List Char) : Option Nat :=
  if cs ≠ [] ∧ cs.all (isDigitB 10) ∧ valBE 10 cs ≤ 255 then some (valBE 10 cs) else none

def parseV4 (s : List Char) : Option Ipv4Addr :=
  match splitOnChar '.' s with
  | [a, b, c, d] => do
    let x1 ← parseOctet a
    let x2 ← parseOctet b
    let x3 ← parseOctet c
    let x4 ← parseOctet d
    pure ⟨x1, x2, x3, x4⟩
  | _ => none

def parseV6 (s : List Char) : Option Ipv6Addr :=
  match splitOnChar ':' s with
  | [a, b, c, d, e, f, g, h] => do
    let x1 ← parseGroup a
    let x2 ← parseGroup b
    let x3 ← parseGroup c
    let x4 ← parseGroup d
    let x5 ← parseGroup e
    let x6 ← parseGroup f
    let x7 ← parseGroup g
    let x8 ← parseGroup h
    pure ⟨x1, x2, x3, x4, x5, x6, x7, x8⟩
  | _ => none

def parseV4Net (s : List Char) : Option IpNetwork :=
  match splitOnChar '/' s with
  | [a] => (parseV4 a).map (fun ip => .v4 ip ⟨32, by omega⟩)
  | [a, p] => do
    let ip ← parseV4 a
    let n ← parseU8 p
    if h : n ≤ 32 then pure (.v4 ip ⟨n, by omega⟩) else none
  | _ => none

def parseV6Net (s : List Char) : Option IpNetwork :=
  match splitOnChar '/' s with
  | [a] => (parseV6 a).map (fun ip => .v6 ip ⟨128, by omega⟩)
  | [a, p] => do
    let ip ← parseV6 a
    let n ← parseU8 p
    if h : n ≤ 128 then pure (.v6 ip ⟨n, by omega⟩) else none
  | _ => none

/-- `IpNetwork::from_str`: try the IPv4 form, then the IPv6 form. -/
def IpNetwork.fromStr (s : List Char) : Option IpNetwork :=
  match parseV4Net s with
  | some n => some n
  | none => parseV6Net s

/-! ## Line normalization and the persisted-file parser (`AllowList::load`) -/

/-- The literal pattern removed from each line: `allow` followed by a space. -/
def allowPat : List Char := ['a', 'l', 'l', 'o', 'w', ' ']

/-- `line.replace(";", "")` — the replacement is empty, so this is a filter. -/
def removeSemis (l : List Char) : List Char := l.filter (fun c => c != ';')

/-- `line.replace("allow ", "")`: remove the non-overlapping occurrences of the
pattern, scanning left to right. -/
def removeAllowSp : List Char → List Char
  | 'a' :: 'l' :: 'l' :: 'o' :: 'w' :: ' ' :: rest => removeAllowSp rest
  | c :: rest => c :: removeAllowSp rest
  | [] => []

/-- ASCII whitespace as recognised by the trim step. -/
def isWsChar (c : Char) : Bool := c = ' ' || c = '\t' || c = '\n' || c = '\r'

/-- `str::trim`: drop leading and trailing whitespace. -/
def trimChars (l : List Char) : List Char :=
  ((l.dropWhile isWsChar).reverse.dropWhile isWsChar).reverse

/-- The per-line normalization of `AllowList::load` (main.rs lines 90–92):
remove every `;`, remove every `allow ` occurrence, trim. -/
def normalizeLine (l : List Char) : List Char :=
  trimChars (removeAllowSp (removeSemis l))

/-- Drop a single trailing carriage return, as `str::lines` does for each
newline-terminated piece. -/
def stripTrailingCR (l : List Char) : List Char :=
  match l.reverse with
  | c :: t => if c = '\r' then t.reverse else l
  | [] => l

/-- `str::lines`: split at newlines, strip `\r` before each newline, and do not
produce a final empty line for a trailing newline. -/
def rustLines (s : List Char) : List (List Char) :=
  let parts := splitOnChar '\n' s
  let body := (parts.dropLast).map stripTrailingCR
  match parts.getLast? with
  | some [] => body
  | some last => body ++ [last]
  | none => body

/-- The parsing loop of `AllowList::load` (main.rs lines 89–114): skip lines
that normalize to nothing, insert parsed CIDRs, and on the first parse failure
clear everything and stop. -/
def parseLines : List (List Char) → Finset IpNetwork → Finset IpNetwork
  | [], acc => acc
  | l :: rest, acc =>
    let n := normalizeLine l
    if n = [] then parseLines rest acc
    else
      match IpNetwork.fromStr n with
      | some cidr => parseLines rest (insert cidr acc)
      | none => ∅

/-- The allow-set `AllowList::load` computes from the file text. -/
def loadParse (content : List Char) : Finset IpNetwork :=
  parseLines (rustLines content) ∅

/-! ## Serialization (`AllowList::save`) -/

/-- One written line: `allow <CIDR>;` followed by a newline (main.rs line 138). -/
def allowLine (c : IpNetwork) : List Char := allowPat ++ c.display ++ [';', '\n']

/-- The text `save` writes for the set, enumerated in iteration order `l`. -/
def serializeAllow (l : List IpNetwork) : List Char := (l.map allowLine).flatten

/-! ## Byte-level reading (`File::read_to_string` rejects invalid UTF-8) -/

def isCont (b : Nat) : Bool := 128 ≤ b && b < 192

/-- Strict UTF-8 decoding: rejects stray continuations, overlong forms,
surrogates and code points beyond `0x10FFFF`, as `read_to_string` does. -/
def utf8Decode : List Nat → Option (List Char)
  | [] => some []
  | b0 :: t0 =>
    if b0 < 128 then (utf8Decode t0).map (fun cs => Char.ofNat b0 :: cs)
    else if b0 < 194 then none
    else if b0 < 224 then
      match t0 with
      | b1 :: t1 =>
        if isCont b1 then
          (utf8Decode t1).map (fun cs => Char.ofNat ((b0 - 192) * 64 + (b1 - 128)) :: cs)
        else none
      | [] => none
    else if b0 < 240 then
      match t0 with
      | b1 :: b2 :: t2 =>
        if isCont b1 && isCont b2 then
          let cp := (b0 - 224) * 4096 + (b1 - 128) * 64 + (b2 - 128)
          if 2048 ≤ cp ∧ (cp < 55296 ∨ 57344 ≤ cp) then
            (utf8Decode t2).map (fun cs => Char.ofNat cp :: cs)
          else none
        else none
      | _ => none
    else if b0 < 245 then
      match t0 with
      | b1 :: b2 :: b3 :: t3 =>
        if isCont b1 && isCont b2 && isCont b3 then
          let cp := (b0 - 240) * 262144 + (b1 - 128) * 4096 + (b2 - 128) * 64 + (b3 - 128)
          if 65536 ≤ cp ∧ cp < 1114112 then
            (utf8Decode t3).map (fun cs => Char.ofNat cp :: cs)
          else none
        else none
      | _ => none
    else none

/-! ## The AllowList store -/

inductive IOErr where
  | openFailed
  | invalidData
  | writeFailed
deriving DecidableEq

/-- The store: the backing file's current text and the in-memory allow set. -/
structure Store where
  fileContent : List Char
  allowList : Finset IpNetwork

/-- `AllowList::load` (main.rs lines 76–120).  The oracle input is the result
of opening and reading the file: an open error, or the raw bytes read. -/
def AllowList.load (openResult : Except IOErr (List Nat)) : Except IOErr Store :=
  match openResult with
  | .error e => .error e
  | .ok bytes =>
    match utf8Decode bytes with
    | none => .error IOErr.invalidData
    | some content => .ok ⟨content, loadParse content⟩

/-- `AllowList::save` (main.rs lines 132–142): truncate and rewrite the file
with one `allow <CIDR>;` line per entry, in iteration order `order`.  The
oracle `fail` is `none` when the file operations succeed; on failure it carries
the error and whatever (possibly partial) content the file was left with. -/
def AllowList.save (st : Store) (order : List IpNetwork)
    (fail : Option (IOErr × List Char)) : Store × Except IOErr Unit :=
  match fail with
  | some (e, partialContent) => ({ st with fileContent := partialContent }, .error e)
  | none => ({ st with fileContent := serializeAllow order }, .ok ())

/-- `AllowList::update` (main.rs lines 122–130): if the candidate differs from
the current set, replace the in-memory set, save, and report a change;
otherwise do nothing.  The error of a failed save propagates, after the
in-memory set has already been replaced. -/
def AllowList.update (st : Store) (cand : Finset IpNetwork) (order : List IpNetwork)
    (fail : Option (IOErr × List Char)) : Store × Except IOErr Bool :=
  if st.allowList ≠ cand then
    match AllowList.save { st with allowList := cand } order fail with
    | (st2, .ok _) => (st2, .ok true)
    | (st2, .error e) => (st2, .error e)
  else (st, .ok false)

/-! ## The reconciliation cycle -/

inductive FetchErr where
  | transport
  | badStatus (code : Nat)
  | badBody
deriving DecidableEq

inductive HookErr where
  | launchFailed
deriving DecidableEq

inductive CycleErr where
  | fetch (e : FetchErr)
  | io (e : IOErr)
  | hook
deriving DecidableEq

/-- `execute_after_update_hook` (main.rs lines 232–244): run the command; a
launch failure, a non-zero exit code, or an unobtainable exit code is an
error.  The oracle is the result of `Command::status()`. -/
def execute_after_update_hook (statusResult : Except HookErr (Option Nat)) :
    Except CycleErr Unit :=
  match statusResult with
  | .error _ => .error .hook
  | .ok (some 0) => .ok ()
  | .ok (some _) => .error .hook
  | .ok none => .error .hook

/-- `update_cycle` (main.rs lines 215–230): fetch, update, and on a reported
change run the hook.  Oracles: the fetch result, the save-failure oracle, the
hook status.  Returns the final store, the cycle result, and whether the hook
command was actually invoked. -/
def update_cycle (fetchResult : Except FetchErr (Finset IpNetwork)) (st : Store)
    (order : List IpNetwork) (saveFail : Option (IOErr × List Char))
    (hookStatus : Except HookErr (Option Nat)) :
    Store × Except CycleErr Bool × Bool :=
  match fetchResult with
  | .error e => (st, .error (.fetch e), false)
  | .ok cand =>
    match AllowList.update st cand order saveFail with
    | (st1, .error e) => (st1, .error (.io e), false)
    | (st1, .ok true) =>
      match execute_after_update_hook hookStatus with
      | .error e => (st1, .error e, true)
      | .ok _ => (st1, .ok true, true)
    | (st1, .ok false) => (st1, .ok false, false)

/-! ## Traces of the main loop -/

/-- The environment of one cycle of the main loop. -/
structure CycleInput where
  fetchResult : Except FetchErr (Finset IpNetwork)
  order : List IpNetwork
  saveFail : Option (IOErr × List Char)
  hookStatus : Except HookErr (Option Nat)

/-- Whether an update result reports a change. -/
def reportsChanged (r : Except IOErr Bool) : Bool :=
  match r with
  | .ok true => true
  | _ => false

/-- Whether, in state `st`, the cycle's update step reports a change. -/
def cycleChanged (st : Store) (inp : CycleInput) : Bool :=
  match inp.fetchResult with
  | .error _ => false
  | .ok cand => reportsChanged (AllowList.update st cand inp.order inp.saveFail).2

/-- Run the main loop over a list of cycle environments, counting hook
invocations and cycles whose update step reported a change. -/
def runTrace (st : Store) : List CycleInput → Store × Nat × Nat
  | [] => (st, 0, 0)
  | inp :: rest =>
    let r := update_cycle inp.fetchResult st inp.order inp.saveFail inp.hookStatus
    let rest' := runTrace r.1 rest
    (rest'.1, (if r.2.2 then 1 else 0) + rest'.2.1,
      (if cycleChanged st inp then 1 else 0) + rest'.2.2)

/-! ## Lemmas: digit rendering reads back -/

theorem natDigitsRevAux_eq (b : Nat) (hb : 2 ≤ b) :
    ∀ fuel n, n ≤ fuel → natDigitsRevAux b fuel n = Nat.digits b n := by
  intro fuel
  induction fuel with
  | zero =>
    intro n hn
    have h0 : n = 0 := by omega
    subst h0
    simp [natDigitsRevAux]
  | succ f ih =>
    intro n hn
    by_cases h0 : n = 0
    · subst h0; simp [natDigitsRevAux]
    · simp only [natDigitsRevAux, h0, if_false]
      have hdiv : n / b < n := Nat.div_lt_self (Nat.pos_of_ne_zero h0) (by omega)
      rw [ih (n / b) (by omega),
        Nat.digits_def' (by omega : 1 < b) (Nat.pos_of_ne_zero h0)]

theorem natDigitsRev_eq (b n : Nat) (hb : 2 ≤ b) : natDigitsRev b n = Nat.digits b n :=
  natDigitsRevAux_eq b hb (n + 1) n (by omega)

theorem digitVal_digitChar : ∀ d : Fin 16, digitVal (digitChar d.val) = d.val := by decide

theorem isDigitB10_digitChar : ∀ d : Fin 10, isDigitB 10 (digitChar d.val) = true := by decide

theorem isDigitB16_digitChar : ∀ d : Fin 16, isDigitB 16 (digitChar d.val) = true := by decide

theorem digitChar_good : ∀ d : Fin 16,
    digitChar d.val ≠ ';' ∧ digitChar d.val ≠ ' ' ∧ digitChar d.val ≠ '\n' ∧
    digitChar d.val ≠ '\r' ∧ isWsChar (digitChar d.val) = false ∧
    digitChar d.val ≠ '.' ∧ digitChar d.val ≠ ':' ∧ digitChar d.val ≠ '/' := by decide

theorem digitChar_eq_zero_iff : ∀ d : Fin 10, (digitChar d.val = '0' ↔ d.val = 0) := by decide

theorem foldl_mul_add (b : Nat) : ∀ (ds : List Nat) (a : Nat),
    ds.reverse.foldl (fun x d => x * b + d) a = a * b ^ ds.length + Nat.ofDigits b ds := by
  intro ds
  induction ds with
  | nil => intro a; simp [Nat.ofDigits_nil]
  | cons d t ih =>
    intro a
    simp only [List.reverse_cons, List.foldl_append, List.foldl_cons, List.foldl_nil, ih,
      Nat.ofDigits_cons, List.length_cons]
    ring

theorem valBE_map_rev (b : Nat) (ds : List Nat) (hds : ∀ d ∈ ds, d < 16) :
    valBE b ((ds.map digitChar).reverse) = Nat.ofDigits b ds := by
  have h1 : ((ds.map digitChar).reverse).map digitVal = ds.reverse := by
    rw [← List.map_reverse, List.map_map]
    have : ds.reverse.map (digitVal ∘ digitChar) = ds.reverse.map id := by
      apply List.map_congr_left
      intro d hd
      have hd16 : d < 16 := hds d (List.mem_reverse.mp hd)
      exact digitVal_digitChar ⟨d, hd16⟩
    rw [this, List.map_id]
  unfold valBE
  rw [← List.foldl_map (f := digitVal) (g := fun a d => a * b + d), h1, foldl_mul_add]
  simp

theorem valBE_natToStrChars (b n : Nat) (hb : 2 ≤ b) (hb16 : b ≤ 16) :
    valBE b (natToStrChars b n) = n := by
  by_cases h0 : n = 0
  · subst h0
    have hv : digitVal '0' = 0 := by decide
    simp [natToStrChars, valBE, hv]
  · unfold natToStrChars
    rw [if_neg h0, natDigitsRev_eq b n hb,
      valBE_map_rev b _ (fun d hd => lt_of_lt_of_le (Nat.digits_lt_base (by omega) hd) hb16),
      Nat.ofDigits_digits]

theorem digitsLen_le (b n k : Nat) (hb : 1 < b) (h : n < b ^ k) :
    (Nat.digits b n).length ≤ k := by
  by_cases h0 : n = 0
  · subst h0; simp
  · by_contra hlt
    push_neg at hlt
    have h1 : b ^ (Nat.digits b n).length ≤ b * n :=
      Nat.base_pow_length_digits_le b n hb h0
    have h2 : b ^ (k + 1) ≤ b ^ (Nat.digits b n).length :=
      Nat.pow_le_pow_right (by omega) (by omega)
    have h3 : b ^ k * b ≤ b * n := by
      calc b ^ k * b = b ^ (k + 1) := (pow_succ b k).symm
        _ ≤ b ^ (Nat.digits b n).length := h2
        _ ≤ b * n := h1
    have h3' : b * b ^ k ≤ b * n := by
      rw [Nat.mul_comm]
      exact h3
    have h4 : b ^ k ≤ n := Nat.le_of_mul_le_mul_left h3' (by omega)
    omega

theorem length_natToStrChars_le (b n k : Nat) (hb : 2 ≤ b) (hk : 1 ≤ k) (h : n < b ^ k) :
    (natToStrChars b n).length ≤ k := by
  unfold natToStrChars
  by_cases h0 : n = 0
  · simp [h0]; omega
  · rw [if_neg h0, List.length_reverse, List.length_map, natDigitsRev_eq b n hb]
    exact digitsLen_le b n k (by omega) h

theorem natToStrChars_ne_nil (b n : Nat) (hb : 2 ≤ b) : natToStrChars b n ≠ [] := by
  unfold natToStrChars
  by_cases h0 : n = 0
  · simp [h0]
  · rw [if_neg h0, natDigitsRev_eq b n hb]
    simp [Nat.digits_ne_nil_iff_ne_zero.mpr h0]

theorem mem_natToStrChars (b n : Nat) (hb : 2 ≤ b) (hb16 : b ≤ 16) :
    ∀ c ∈ natToStrChars b n, ∃ d : Fin 16, d.val < b ∧ c = digitChar d.val := by
  intro c hc
  unfold natToStrChars at hc
  by_cases h0 : n = 0
  · rw [if_pos h0] at hc
    simp only [List.mem_singleton] at hc
    refine ⟨⟨0, by omega⟩, ?_, ?_⟩
    · show (0 : Nat) < b
      omega
    · rw [hc]
      rfl
  · rw [if_neg h0, natDigitsRev_eq b n hb] at hc
    rw [List.mem_reverse, List.mem_map] at hc
    obtain ⟨d, hd, rfl⟩ := hc
    have hdb : d < b := Nat.digits_lt_base (by omega) hd
    exact ⟨⟨d, by omega⟩, hdb, rfl⟩

theorem natToStrChars_head_zero (n : Nat) (h : (natToStrChars 10 n).head? = some '0') :
    natToStrChars 10 n = ['0'] := by
  by_cases h0 : n = 0
  · simp [natToStrChars, h0]
  · exfalso
    unfold natToStrChars at h
    have hne : Nat.digits 10 n ≠ [] := Nat.digits_ne_nil_iff_ne_zero.mpr h0
    rw [if_neg h0, natDigitsRev_eq 10 n (by omega), List.head?_reverse, List.getLast?_map,
      List.getLast?_eq_getLast _ hne, Option.map_some', Option.some_inj] at h
    have hlast_mem : (Nat.digits 10 n).getLast hne ∈ Nat.digits 10 n := List.getLast_mem hne
    have hlast_lt : (Nat.digits 10 n).getLast hne < 10 :=
      Nat.digits_lt_base (by omega) hlast_mem
    have hlast_ne : (Nat.digits 10 n).getLast hne ≠ 0 := Nat.getLast_digit_ne_zero 10 h0
    exact hlast_ne ((digitChar_eq_zero_iff ⟨_, hlast_lt⟩).mp h)

theorem parseOctet_show (o : Fin 256) : parseOctet (showNatDec o.val) = some o := by
  unfold parseOctet showNatDec
  have h1 : natToStrChars 10 o.val ≠ [] := natToStrChars_ne_nil _ _ (by omega)
  have h2 : (natToStrChars 10 o.val).length ≤ 3 :=
    length_natToStrChars_le 10 o.val 3 (by omega) (by omega) (by have := o.isLt; omega)
  have h3 : (natToStrChars 10 o.val).all (isDigitB 10) = true := by
    rw [List.all_eq_true]
    intro c hc
    obtain ⟨d, hdb, rfl⟩ := mem_natToStrChars 10 o.val (by omega) (by omega) c hc
    exact isDigitB10_digitChar ⟨d.val, hdb⟩
  have hv : valBE 10 (natToStrChars 10 o.val) = o.val :=
    valBE_natToStrChars 10 o.val (by omega) (by omega)
  rw [if_pos ⟨h1, h2, h3, natToStrChars_head_zero o.val⟩]
  simp only [hv]
  rw [dif_pos o.isLt]

theorem parseGroup_show (g : Fin 65536) : parseGroup (showNatHex g.val) = some g := by
  unfold parseGroup showNatHex
  have h1 : natToStrChars 16 g.val ≠ [] := natToStrChars_ne_nil _ _ (by omega)
  have h2 : (natToStrChars 16 g.val).length ≤ 4 :=
    length_natToStrChars_le 16 g.val 4 (by omega) (by omega) (by have := g.isLt; omega)
  have h3 : (natToStrChars 16 g.val).all (isDigitB 16) = true := by
    rw [List.all_eq_true]
    intro c hc
    obtain ⟨d, hdb, rfl⟩ := mem_natToStrChars 16 g.val (by omega) (by omega) c hc
    exact isDigitB16_digitChar d
  have hv : valBE 16 (natToStrChars 16 g.val) = g.val :=
    valBE_natToStrChars 16 g.val (by omega) (by omega)
  rw [if_pos ⟨h1, h2, h3⟩]
  simp only [hv]
  rw [dif_pos g.isLt]

theorem parseU8_show (n : Nat) (hn : n ≤ 255) : parseU8 (showNatDec n) = some n := by
  unfold parseU8 showNatDec
  have h1 : natToStrChars 10 n ≠ [] := natToStrChars_ne_nil _ _ (by omega)
  have h3 : (natToStrChars 10 n).all (isDigitB 10) = true := by
    rw [List.all_eq_true]
    intro c hc
    obtain ⟨d, hdb, rfl⟩ := mem_natToStrChars 10 n (by omega) (by omega) c hc
    exact isDigitB10_digitChar ⟨d.val, hdb⟩
  have hv : valBE 10 (natToStrChars 10 n) = n := valBE_natToStrChars 10 n (by omega) (by omega)
  rw [if_pos ⟨h1, h3, by omega⟩, hv]

/-! ## Lemmas: splitting -/

theorem splitOnCharAux_no_sep (sep : Char) :
    ∀ (p : List Char), sep ∉ p → ∀ (s acc : List Char),
      splitOnCharAux sep (p ++ s) acc = splitOnCharAux sep s (p.reverse ++ acc) := by
  intro p
  induction p with
  | nil => intro _ s acc; simp
  | cons c t ih =>
    intro hp s acc
    have hc : ¬(c = sep) := by
      intro h
      exact hp (by simp [h])
    have step : splitOnCharAux sep ((c :: t) ++ s) acc = splitOnCharAux sep (t ++ s) (c :: acc) := by
      simp [splitOnCharAux, hc]
    rw [step, ih (fun h => hp (List.mem_cons_of_mem _ h)) s (c :: acc)]
    simp

theorem splitOnChar_no_sep (sep : Char) (s : List Char) (hs : sep ∉ s) :
    splitOnChar sep s = [s] := by
  unfold splitOnChar
  have := splitOnCharAux_no_sep sep s hs [] []
  simpa [splitOnCharAux] using this

theorem splitOnChar_cons_part (sep : Char) (p rest : List Char) (hp : sep ∉ p) :
    splitOnChar sep (p ++ sep :: rest) = p :: splitOnChar sep rest := by
  unfold splitOnChar
  rw [splitOnCharAux_no_sep sep p hp (sep :: rest) []]
  simp [splitOnCharAux]

/-! ## Lemmas: the characters a display can contain -/

/-- Classification of every character a network display is built from. -/
def DispChar (c : Char) : Prop :=
  (∃ d : Fin 16, c = digitChar d.val) ∨ c = '.' ∨ c = ':' ∨ c = '/'

theorem dispChar_facts (c : Char) (h : DispChar c) :
    c ≠ ';' ∧ c ≠ ' ' ∧ c ≠ '\n' ∧ c ≠ '\r' ∧ isWsChar c = false := by
  rcases h with ⟨d, rfl⟩ | rfl | rfl | rfl
  · obtain ⟨a1, a2, a3, a4, a5, _⟩ := digitChar_good d
    exact ⟨a1, a2, a3, a4, a5⟩
  · refine ⟨by decide, by decide, by decide, by decide, by decide⟩
  · refine ⟨by decide, by decide, by decide, by decide, by decide⟩
  · refine ⟨by decide, by decide, by decide, by decide, by decide⟩

theorem mem_showNatDec (n : Nat) : ∀ c ∈ showNatDec n,
    ∃ d : Fin 16, d.val < 10 ∧ c = digitChar d.val := by
  intro c hc
  obtain ⟨d, hdb, rfl⟩ := mem_natToStrChars 10 n (by omega) (by omega) c hc
  exact ⟨d, hdb, rfl⟩

theorem mem_showNatHex (n : Nat) : ∀ c ∈ showNatHex n,
    ∃ d : Fin 16, c = digitChar d.val := by
  intro c hc
  obtain ⟨d, _, rfl⟩ := mem_natToStrChars 16 n (by omega) (by omega) c hc
  exact ⟨d, rfl⟩

theorem not_mem_showNatDec (n : Nat) (c : Char)
    (hc : ∀ d : Fin 16, c ≠ digitChar d.val) : c ∉ showNatDec n := by
  intro hmem
  obtain ⟨d, _, rfl⟩ := mem_showNatDec n c hmem
  exact hc d rfl

theorem not_mem_showNatHex (n : Nat) (c : Char)
    (hc : ∀ d : Fin 16, c ≠ digitChar d.val) : c ∉ showNatHex n := by
  intro hmem
  obtain ⟨d, rfl⟩ := mem_showNatHex n c hmem
  exact hc d rfl

theorem sep_not_digit : ∀ d : Fin 16,
    '.' ≠ digitChar d.val ∧ ':' ≠ digitChar d.val ∧ '/' ≠ digitChar d.val ∧
    '\n' ≠ digitChar d.val := by decide

theorem mem_v4display (a : Ipv4Addr) : ∀ c ∈ a.display,
    (∃ d : Fin 16, c = digitChar d.val) ∨ c = '.' := by
  intro c hc
  have dig : ∀ {n : Nat}, c ∈ showNatDec n →
      (∃ d : Fin 16, c = digitChar d.val) ∨ c = '.' := fun h =>
    Or.inl ⟨(mem_showNatDec _ c h).choose, (mem_showNatDec _ c h).choose_spec.2⟩
  unfold Ipv4Addr.display at hc
  simp only [List.mem_append, List.mem_cons] at hc
  rcases hc with h | rfl | h | rfl | h | rfl | h
  · exact dig h
  · exact Or.inr rfl
  · exact dig h
  · exact Or.inr rfl
  · exact dig h
  · exact Or.inr rfl
  · exact dig h

theorem mem_v6display (a : Ipv6Addr) : ∀ c ∈ a.display,
    (∃ d : Fin 16, c = digitChar d.val) ∨ c = ':' := by
  intro c hc
  have dig : ∀ {n : Nat}, c ∈ showNatHex n →
      (∃ d : Fin 16, c = digitChar d.val) ∨ c = ':' := fun h =>
    Or.inl (mem_showNatHex _ c h)
  unfold Ipv6Addr.display at hc
  simp only [List.mem_append, List.mem_cons] at hc
  rcases hc with h | rfl | h | rfl | h | rfl | h | rfl | h | rfl | h | rfl | h | rfl | h
  · exact dig h
  · exact Or.inr rfl
  · exact dig h
  · exact Or.inr rfl
  · exact dig h
  · exact Or.inr rfl
  · exact dig h
  · exact Or.inr rfl
  · exact dig h
  · exact Or.inr rfl
  · exact dig h
  · exact Or.inr rfl
  · exact dig h
  · exact Or.inr rfl
  · exact dig h

theorem mem_display (net : IpNetwork) : ∀ c ∈ net.display, DispChar c := by
  intro c hc
  cases net with
  | v4 a p =>
    unfold IpNetwork.display at hc
    simp only [List.mem_append, List.mem_cons] at hc
    rcases hc with h | rfl | h
    · rcases mem_v4display a c h with h4 | rfl
      · exact Or.inl h4
      · exact Or.inr (Or.inl rfl)
    · exact Or.inr (Or.inr (Or.inr rfl))
    · exact Or.inl ⟨(mem_showNatDec _ c h).choose, (mem_showNatDec _ c h).choose_spec.2⟩
  | v6 a p =>
    unfold IpNetwork.display at hc
    simp only [List.mem_append, List.mem_cons] at hc
    rcases hc with h | rfl | h
    · rcases mem_v6display a c h with h6 | rfl
      · exact Or.inl h6
      · exact Or.inr (Or.inr (Or.inl rfl))
    · exact Or.inr (Or.inr (Or.inr rfl))
    · exact Or.inl ⟨(mem_showNatDec _ c h).choose, (mem_showNatDec _ c h).choose_spec.2⟩

theorem dot_not_mem_showNatDec (n : Nat) : '.' ∉ showNatDec n :=
  not_mem_showNatDec n '.' (fun d => (sep_not_digit d).1)

theorem slash_not_mem_showNatDec (n : Nat) : '/' ∉ showNatDec n :=
  not_mem_showNatDec n '/' (fun d => (sep_not_digit d).2.2.1)

theorem colon_not_mem_showNatHex (n : Nat) : ':' ∉ showNatHex n :=
  not_mem_showNatHex n ':' (fun d => (sep_not_digit d).2.1)

theorem slash_not_mem_v4display (a : Ipv4Addr) : '/' ∉ a.display := by
  intro h
  rcases mem_v4display a _ h with ⟨d, hd⟩ | hd
  · exact (sep_not_digit d).2.2.1 hd
  · exact absurd hd (by decide)

theorem slash_not_mem_v6display (a : Ipv6Addr) : '/' ∉ a.display := by
  intro h
  rcases mem_v6display a _ h with ⟨d, hd⟩ | hd
  · exact (sep_not_digit d).2.2.1 hd
  · exact absurd hd (by decide)

theorem dot_not_mem_v6display (a : Ipv6Addr) : '.' ∉ a.display := by
  intro h
  rcases mem_v6display a _ h with ⟨d, hd⟩ | hd
  · exact (sep_not_digit d).1 hd
  · exact absurd hd (by decide)

/-! ## Lemmas: parsing a display recovers the network -/

theorem parseV4_display (a : Ipv4Addr) : parseV4 a.display = some a := by
  unfold parseV4 Ipv4Addr.display
  rw [splitOnChar_cons_part '.' _ _ (dot_not_mem_showNatDec _),
    splitOnChar_cons_part '.' _ _ (dot_not_mem_showNatDec _),
    splitOnChar_cons_part '.' _ _ (dot_not_mem_showNatDec _),
    splitOnChar_no_sep '.' _ (dot_not_mem_showNatDec _)]
  simp [parseOctet_show]

theorem parseV6_display (a : Ipv6Addr) : parseV6 a.display = some a := by
  unfold parseV6 Ipv6Addr.display
  rw [splitOnChar_cons_part ':' _ _ (colon_not_mem_showNatHex _),
    splitOnChar_cons_part ':' _ _ (colon_not_mem_showNatHex _),
    splitOnChar_cons_part ':' _ _ (colon_not_mem_showNatHex _),
    splitOnChar_cons_part ':' _ _ (colon_not_mem_showNatHex _),
    splitOnChar_cons_part ':' _ _ (colon_not_mem_showNatHex _),
    splitOnChar_cons_part ':' _ _ (colon_not_mem_showNatHex _),
    splitOnChar_cons_part ':' _ _ (colon_not_mem_showNatHex _),
    splitOnChar_no_sep ':' _ (colon_not_mem_showNatHex _)]
  simp [parseGroup_show]

theorem parseV4_v6display (a : Ipv6Addr) : parseV4 a.display = none := by
  unfold parseV4
  rw [splitOnChar_no_sep '.' _ (dot_not_mem_v6display a)]

theorem fromStr_display (net : IpNetwork) : IpNetwork.fromStr net.display = some net := by
  cases net with
  | v4 a p =>
    have h4 : parseV4Net ((IpNetwork.v4 a p).display) = some (.v4 a p) := by
      unfold parseV4Net IpNetwork.display
      rw [splitOnChar_cons_part '/' _ _ (slash_not_mem_v4display a),
        splitOnChar_no_sep '/' _ (slash_not_mem_showNatDec _)]
      have hple : p.val ≤ 32 := by have := p.isLt; omega
      simp [parseV4_display a, parseU8_show p.val (by omega), hple]
    unfold IpNetwork.fromStr
    rw [h4]
  | v6 a p =>
    have h4 : parseV4Net ((IpNetwork.v6 a p).display) = none := by
      unfold parseV4Net IpNetwork.display
      rw [splitOnChar_cons_part '/' _ _ (slash_not_mem_v6display a),
        splitOnChar_no_sep '/' _ (slash_not_mem_showNatDec _)]
      simp [parseV4_v6display a]
    have h6 : parseV6Net ((IpNetwork.v6 a p).display) = some (.v6 a p) := by
      unfold parseV6Net IpNetwork.display
      rw [splitOnChar_cons_part '/' _ _ (slash_not_mem_v6display a),
        splitOnChar_no_sep '/' _ (slash_not_mem_showNatDec _)]
      have hple : p.val ≤ 128 := by have := p.isLt; omega
      simp [parseV6_display a, parseU8_show p.val (by omega), hple]
    unfold IpNetwork.fromStr
    rw [h4, h6]

/-! ## Lemmas: line normalization -/

theorem removeSemis_append (a b : List Char) :
    removeSemis (a ++ b) = removeSemis a ++ removeSemis b := by
  unfold removeSemis
  exact List.filter_append a b

theorem removeSemis_no_semi (l : List Char) (h : ';' ∉ l) : removeSemis l = l := by
  unfold removeSemis
  rw [List.filter_eq_self]
  intro a ha
  have hne : a ≠ ';' := fun hh => h (hh ▸ ha)
  simpa using hne

theorem removeAllowSp_no_space : ∀ (s : List Char), ' ' ∉ s → removeAllowSp s = s := by
  intro s
  induction s with
  | nil => intro _; rfl
  | cons c rest ih =>
    intro h
    rw [removeAllowSp.eq_def]
    split
    · next rest2 heq =>
      rw [heq] at h
      exact absurd (by simp) h
    · next c2 rest2 heq =>
      injection heq with h1 h2
      subst h1
      subst h2
      rw [ih (fun hm => h (List.mem_cons_of_mem _ hm))]
    · next heq => exact absurd heq (List.cons_ne_nil c rest)

theorem dropWhile_all_false (p : Char → Bool) (l : List Char)
    (h : ∀ c ∈ l, p c = false) : l.dropWhile p = l := by
  cases l with
  | nil => rfl
  | cons c t => simp [List.dropWhile_cons, h c (List.mem_cons_self c t)]

theorem trimChars_no_ws (l : List Char) (h : ∀ c ∈ l, isWsChar c = false) :
    trimChars l = l := by
  unfold trimChars
  rw [dropWhile_all_false isWsChar l h,
    dropWhile_all_false isWsChar l.reverse (fun c hc => h c (List.mem_reverse.mp hc)),
    List.reverse_reverse]

theorem allowPat_no_semi : (';' : Char) ∉ allowPat := by decide

theorem removeAllowSp_allowPat (d : List Char) :
    removeAllowSp (allowPat ++ d) = removeAllowSp d := rfl

/-- The line written for one entry, without its newline terminator. -/
theorem normalizeLine_allow (d : List Char) (h1 : ';' ∉ d) (h2 : ' ' ∉ d)
    (h3 : ∀ c ∈ d, isWsChar c = false) :
    normalizeLine (allowPat ++ d ++ [';']) = d := by
  unfold normalizeLine
  rw [List.append_assoc, removeSemis_append, removeSemis_no_semi _ allowPat_no_semi,
    removeSemis_append, removeSemis_no_semi _ h1]
  have e0 : removeSemis [';'] = [] := rfl
  rw [e0, List.append_nil, removeAllowSp_allowPat, removeAllowSp_no_space d h2,
    trimChars_no_ws d h3]

/-! ## Lemmas: lines of a serialized file -/

theorem stripTrailingCR_no_cr (p : List Char) (h : '\r' ∉ p) : stripTrailingCR p = p := by
  unfold stripTrailingCR
  cases hrev : p.reverse with
  | nil => rfl
  | cons c t =>
    have hc : c ∈ p := by
      rw [← List.mem_reverse, hrev]
      simp
    have hne : ¬(c = '\r') := fun hcc => h (hcc ▸ hc)
    simp [hne]

theorem splitOnChar_flatten (ps : List (List Char)) (h : ∀ p ∈ ps, '\n' ∉ p) :
    splitOnChar '\n' ((ps.map (fun p => p ++ ['\n'])).flatten) = ps ++ [[]] := by
  induction ps with
  | nil => simp [splitOnChar, splitOnCharAux]
  | cons p t ih =>
    simp only [List.map_cons, List.flatten_cons, List.append_assoc, List.singleton_append]
    rw [splitOnChar_cons_part '\n' p _ (h p (List.mem_cons_self p t)),
      ih (fun q hq => h q (List.mem_cons_of_mem _ hq))]
    rfl

theorem rustLines_flatten (ps : List (List Char))
    (h : ∀ p ∈ ps, '\n' ∉ p ∧ '\r' ∉ p) :
    rustLines ((ps.map (fun p => p ++ ['\n'])).flatten) = ps := by
  unfold rustLines
  rw [splitOnChar_flatten ps (fun p hp => (h p hp).1)]
  simp only [List.dropLast_concat, List.getLast?_concat]
  have hmap : ps.map stripTrailingCR = ps := by
    have : ps.map stripTrailingCR = ps.map id :=
      List.map_congr_left (fun p hp => stripTrailingCR_no_cr p (h p hp).2)
    rw [this, List.map_id]
  simpa using hmap

/-! ## Lemmas: parsing the serialized lines back -/

theorem display_ne_nil (net : IpNetwork) : net.display ≠ [] := by
  cases net with
  | v4 a p =>
    unfold IpNetwork.display Ipv4Addr.display
    simp
  | v6 a p =>
    unfold IpNetwork.display Ipv6Addr.display
    simp

theorem semi_not_mem_display (net : IpNetwork) : ';' ∉ net.display := fun h =>
  (dispChar_facts _ (mem_display net _ h)).1 rfl

theorem space_not_mem_display (net : IpNetwork) : ' ' ∉ net.display := fun h =>
  (dispChar_facts _ (mem_display net _ h)).2.1 rfl

theorem nl_not_mem_display (net : IpNetwork) : '\n' ∉ net.display := fun h =>
  (dispChar_facts _ (mem_display net _ h)).2.2.1 rfl

theorem cr_not_mem_display (net : IpNetwork) : '\r' ∉ net.display := fun h =>
  (dispChar_facts _ (mem_display net _ h)).2.2.2.1 rfl

theorem ws_false_display (net : IpNetwork) : ∀ c ∈ net.display, isWsChar c = false :=
  fun c hc => (dispChar_facts c (mem_display net c hc)).2.2.2.2

theorem normalizeLine_allowLine (net : IpNetwork) :
    normalizeLine (allowPat ++ net.display ++ [';']) = net.display :=
  normalizeLine_allow net.display (semi_not_mem_display net) (space_not_mem_display net)
    (ws_false_display net)

theorem parseLines_append_allow (nets : List IpNetwork) : ∀ acc : Finset IpNetwork,
    parseLines (nets.map (fun c => allowPat ++ c.display ++ [';'])) acc
      = acc ∪ nets.toFinset := by
  induction nets with
  | nil => intro acc; simp [parseLines]
  | cons c t ih =>
    intro acc
    simp only [List.map_cons, parseLines, normalizeLine_allowLine c]
    rw [if_neg (display_ne_nil c), fromStr_display c]
    show parseLines (t.map (fun c => allowPat ++ c.display ++ [';'])) (insert c acc)
      = acc ∪ (c :: t).toFinset
    rw [ih (insert c acc), List.toFinset_cons, Finset.insert_union, Finset.union_insert]

theorem lineBody_no_nl_cr (net : IpNetwork) :
    '\n' ∉ allowPat ++ net.display ++ [';'] ∧ '\r' ∉ allowPat ++ net.display ++ [';'] := by
  constructor
  · intro h
    simp only [List.mem_append, List.mem_singleton] at h
    rcases h with (h | h) | h
    · exact absurd h (by decide)
    · exact nl_not_mem_display net h
    · exact absurd h (by decide)
  · intro h
    simp only [List.mem_append, List.mem_singleton] at h
    rcases h with (h | h) | h
    · exact absurd h (by decide)
    · exact cr_not_mem_display net h
    · exact absurd h (by decide)

theorem serializeAllow_eq (l : List IpNetwork) :
    serializeAllow l
      = ((l.map (fun c => allowPat ++ c.display ++ [';'])).map (fun p => p ++ ['\n'])).flatten := by
  unfold serializeAllow
  rw [List.map_map]
  congr 1
  apply List.map_congr_left
  intro c _
  unfold allowLine
  simp [List.append_assoc]

theorem rustLines_serializeAllow (l : List IpNetwork) :
    rustLines (serializeAllow l) = l.map (fun c => allowPat ++ c.display ++ [';']) := by
  rw [serializeAllow_eq]
  apply rustLines_flatten
  intro p hp
  rw [List.mem_map] at hp
  obtain ⟨net, _, rfl⟩ := hp
  exact lineBody_no_nl_cr net

/-! ## Lemmas: a bad line empties the whole parse -/

theorem parseLines_bad : ∀ (ls : List (List Char)) (acc : Finset IpNetwork),
    (∃ l ∈ ls, normalizeLine l ≠ [] ∧ IpNetwork.fromStr (normalizeLine l) = none) →
    parseLines ls acc = ∅ := by
  intro ls
  induction ls with
  | nil =>
    intro acc h
    simp at h
  | cons l t ih =>
    intro acc h
    obtain ⟨l0, hmem, hbad⟩ := h
    simp only [parseLines]
    rcases List.mem_cons.mp hmem with rfl | hmem'
    · rw [if_neg hbad.1, hbad.2]
    · by_cases hn : normalizeLine l = []
      · rw [if_pos hn]
        exact ih acc ⟨l0, hmem', hbad⟩
      · rw [if_neg hn]
        cases hfs : IpNetwork.fromStr (normalizeLine l) with
        | some c => exact ih _ ⟨l0, hmem', hbad⟩
        | none => rfl

/-! ## Concrete networks used by the witnesses -/

def sampleNetA : IpNetwork := .v4 ⟨10, 0, 0, 0⟩ 24

def sampleNetB : IpNetwork := .v4 ⟨192, 168, 1, 1⟩ 32

/-! ## The claims -/

/-- C1: Fail-closed parsing in `load`: whenever some line of the file fails to
parse as a CIDR entry (it normalizes to a non-empty residue that is not a
CIDR), the resulting in-memory allow set is the empty set, not a partial set. -/
theorem load_fail_closed (content : List Char)
    (h : ∃ l ∈ rustLines content, normalizeLine l ≠ [] ∧
      IpNetwork.fromStr (normalizeLine l) = none) :
    loadParse content = ∅ :=
  parseLines_bad (rustLines content) ∅ h

/-- Witness for C1: one valid entry followed by one malformed line parses to
the empty set. -/
theorem load_fail_closed_witness :
    (∃ l ∈ rustLines ("allow 10.0.0.0/24;\ngarbage\n").data,
      normalizeLine l ≠ [] ∧ IpNetwork.fromStr (normalizeLine l) = none) ∧
    loadParse ("allow 10.0.0.0/24;\ngarbage\n").data = ∅ :=
  ⟨by decide, load_fail_closed _ (by decide)⟩

/-- C2: Change detection is exact: with a succeeding save, `update` reports a
change exactly when the candidate differs from the stored set as a set, and the
outcome is invariant under reordering of the candidate enumeration. -/
theorem update_change_detection_exact (st : Store) (cand : Finset IpNetwork)
    (order : List IpNetwork) :
    ((AllowList.update st cand order none).2 = Except.ok true ↔ cand ≠ st.allowList) ∧
    ∀ l1 l2 : List IpNetwork, l1.Perm l2 →
      AllowList.update st l1.toFinset order none
        = AllowList.update st l2.toFinset order none := by
  constructor
  · unfold AllowList.update AllowList.save
    by_cases h : st.allowList = cand
    · simp [h]
    · simp [h, Ne.symm h]
  · intro l1 l2 hp
    rw [List.toFinset_eq_of_perm l1 l2 hp]

/-- Witness for C2: a permuted candidate gives the identical result, and a
genuinely different candidate reports a change. -/
theorem update_change_detection_exact_witness :
    AllowList.update ⟨[], ∅⟩ [sampleNetA, sampleNetB].toFinset [sampleNetA] none
      = AllowList.update ⟨[], ∅⟩ [sampleNetB, sampleNetA].toFinset [sampleNetA] none ∧
    ((AllowList.update ⟨[], ∅⟩ {sampleNetA} [sampleNetA] none).2 = Except.ok true ↔
      ({sampleNetA} : Finset IpNetwork) ≠ (⟨[], ∅⟩ : Store).allowList) :=
  ⟨(update_change_detection_exact ⟨[], ∅⟩ ∅ [sampleNetA]).2
      [sampleNetA, sampleNetB] [sampleNetB, sampleNetA] (by decide),
    (update_change_detection_exact ⟨[], ∅⟩ {sampleNetA} [sampleNetA]).1⟩

/-- C3: No-op on an equal candidate: `update` leaves the store (in-memory set
and file content) untouched and returns `changed = false`, for any I/O
oracle. -/
theorem update_noop_on_equal (st : Store) (cand : Finset IpNetwork)
    (order : List IpNetwork) (fail : Option (IOErr × List Char))
    (h : cand = st.allowList) :
    AllowList.update st cand order fail = (st, Except.ok false) := by
  unfold AllowList.update
  rw [if_neg (by simp [h])]

/-- Witness for C3. -/
theorem update_noop_on_equal_witness :
    AllowList.update ⟨['x'], {sampleNetA}⟩ {sampleNetA} []
        (some (IOErr.writeFailed, []))
      = (⟨['x'], {sampleNetA}⟩, Except.ok false) :=
  update_noop_on_equal _ _ _ _ rfl

/-- C4: Save-failure policy: on a differing candidate whose save fails, the
error propagates and the in-memory allow set nevertheless equals the
candidate. -/
theorem update_save_failure_policy (st : Store) (cand : Finset IpNetwork)
    (order : List IpNetwork) (e : IOErr) (pc : List Char)
    (h : cand ≠ st.allowList) :
    (AllowList.update st cand order (some (e, pc))).2 = Except.error e ∧
    (AllowList.update st cand order (some (e, pc))).1.allowList = cand := by
  unfold AllowList.update AllowList.save
  rw [if_pos (Ne.symm h)]
  exact ⟨rfl, rfl⟩

/-- Witness for C4. -/
theorem update_save_failure_policy_witness :
    (AllowList.update ⟨[], ∅⟩ {sampleNetA} [sampleNetA]
        (some (IOErr.writeFailed, []))).2 = Except.error IOErr.writeFailed ∧
    (AllowList.update ⟨[], ∅⟩ {sampleNetA} [sampleNetA]
        (some (IOErr.writeFailed, []))).1.allowList = {sampleNetA} :=
  update_save_failure_policy _ _ _ _ _ (by decide)

/-- C5: A fetch failure is atomic for the cycle: the store (set and file) is
unchanged, the wrapped fetch error is returned, and the hook is not invoked. -/
theorem cycle_fetch_failure_atomic (st : Store) (e : FetchErr)
    (order : List IpNetwork) (saveFail : Option (IOErr × List Char))
    (hookStatus : Except HookErr (Option Nat)) :
    update_cycle (Except.error e) st order saveFail hookStatus
      = (st, Except.error (CycleErr.fetch e), false) := rfl

theorem update_cycle_hook_eq (st : Store) (inp : CycleInput) :
    (update_cycle inp.fetchResult st inp.order inp.saveFail inp.hookStatus).2.2
      = cycleChanged st inp := by
  obtain ⟨f, o, sf, hs⟩ := inp
  cases f with
  | error e => rfl
  | ok cand =>
    rcases hu : AllowList.update st cand o sf with ⟨st1, r⟩
    cases r with
    | error e => simp [update_cycle, cycleChanged, reportsChanged, hu]
    | ok b =>
      cases b with
      | false => simp [update_cycle, cycleChanged, reportsChanged, hu]
      | true =>
        cases hhk : execute_after_update_hook hs with
        | error e => simp [update_cycle, cycleChanged, reportsChanged, hu, hhk]
        | ok u => simp [update_cycle, cycleChanged, reportsChanged, hu, hhk]

theorem runTrace_counts (st : Store) (trace : List CycleInput) :
    (runTrace st trace).2.1 = (runTrace st trace).2.2 := by
  induction trace generalizing st with
  | nil => rfl
  | cons inp rest ih =>
    simp only [runTrace]
    rw [update_cycle_hook_eq st inp,
      ih (update_cycle inp.fetchResult st inp.order inp.saveFail inp.hookStatus).1]

/-- C6: The hook is invoked in a cycle exactly when that cycle's update step
reports a change, and over any trace the number of hook invocations equals the
number of cycles whose update step reported a change. -/
theorem hook_invocation_iff_change (st : Store) (inp : CycleInput)
    (trace : List CycleInput) :
    ((update_cycle inp.fetchResult st inp.order inp.saveFail inp.hookStatus).2.2
      = cycleChanged st inp) ∧
    (runTrace st trace).2.1 = (runTrace st trace).2.2 :=
  ⟨update_cycle_hook_eq st inp, runTrace_counts st trace⟩

/-- C7: Round-trip: serializing any allow set (in any enumeration order) with
`save`'s line format and parsing the result with `load`'s parser yields the
same set. -/
theorem save_load_roundtrip (l : List IpNetwork) :
    loadParse (serializeAllow l) = l.toFinset := by
  unfold loadParse
  rw [rustLines_serializeAllow l, parseLines_append_allow l ∅, Finset.empty_union]

/-- C8 counterexample: a file that opens fine but whose content is not valid
UTF-8 makes `load` return an I/O error (`read_to_string` fails), contradicting
the claim that `load` errors only when the file cannot be opened. -/
theorem load_error_on_unreadable_content :
    AllowList.load (Except.ok [255]) = Except.error IOErr.invalidData := rfl

/-- C8 amended: `load` returns an I/O error exactly when the file cannot be
opened or its bytes are not valid UTF-8; for every other input it returns a
store. -/
theorem load_error_iff (input : Except IOErr (List Nat)) :
    (∃ e, AllowList.load input = Except.error e) ↔
      (∃ e, input = Except.error e) ∨ ∃ bs, input = Except.ok bs ∧ utf8Decode bs = none := by
  cases input with
  | error e => simp [AllowList.load]
  | ok bs =>
    cases hd : utf8Decode bs with
    | none => simp [AllowList.load, hd]
    | some content => simp [AllowList.load, hd]

/-- C9: Idempotence of `update`: the first call writes (and reports a change)
exactly when the candidate differs from the initial state, and a second call
with the same candidate changes nothing, writes nothing, and reports
`changed = false`. -/
theorem update_idempotent (st : Store) (cand : Finset IpNetwork)
    (o1 o2 : List IpNetwork) :
    ((AllowList.update st cand o1 none).2 = Except.ok true ↔ cand ≠ st.allowList) ∧
    (cand ≠ st.allowList →
      (AllowList.update st cand o1 none).1.fileContent = serializeAllow o1) ∧
    (cand = st.allowList → AllowList.update st cand o1 none = (st, Except.ok false)) ∧
    AllowList.update (AllowList.update st cand o1 none).1 cand o2 none
      = ((AllowList.update st cand o1 none).1, Except.ok false) := by
  by_cases h : st.allowList = cand
  · have e1 : AllowList.update st cand o1 none = (st, Except.ok false) := by
      unfold AllowList.update
      rw [if_neg (by simp [h])]
    have e2 : AllowList.update st cand o2 none = (st, Except.ok false) := by
      unfold AllowList.update
      rw [if_neg (by simp [h])]
    refine ⟨?_, fun hne => (hne h.symm).elim, fun _ => e1, ?_⟩
    · rw [e1]
      simp [h.symm]
    · rw [e1]
      exact e2
  · have e1 : AllowList.update st cand o1 none
        = ({ fileContent := serializeAllow o1, allowList := cand }, Except.ok true) := by
      unfold AllowList.update AllowList.save
      rw [if_pos h]
    have e2 : AllowList.update { fileContent := serializeAllow o1, allowList := cand } cand o2 none
        = ({ fileContent := serializeAllow o1, allowList := cand }, Except.ok false) := by
      unfold AllowList.update
      rw [if_neg (by simp)]
    refine ⟨?_, fun _ => ?_, fun heq => (h heq.symm).elim, ?_⟩
    · rw [e1]
      simp [Ne.symm h]
    · rw [e1]
    · rw [e1]
      exact e2

/-- Witness for C9. -/
theorem update_idempotent_witness :
    (AllowList.update ⟨[], ∅⟩ {sampleNetA} [sampleNetA] none).1.fileContent
        = serializeAllow [sampleNetA] ∧
    (AllowList.update ⟨[], ∅⟩ {sampleNetA} [sampleNetA] none).2 = Except.ok true ∧
    AllowList.update (AllowList.update ⟨[], ∅⟩ {sampleNetA} [sampleNetA] none).1
        {sampleNetA} [sampleNetA] none
      = ((AllowList.update ⟨[], ∅⟩ {sampleNetA} [sampleNetA] none).1, Except.ok false) := by
  have h := update_idempotent ⟨[], ∅⟩ {sampleNetA} [sampleNetA] [sampleNetA]
  have hne : ({sampleNetA} : Finset IpNetwork) ≠ (⟨[], ∅⟩ : Store).allowList := by decide
  exact ⟨h.2.1 hne, h.1.mpr hne, h.2.2.2⟩

/-- C10: Lenient line normalization: any single line whose residue — after
removing every `;`, removing every occurrence of `allow ` anywhere in the line,
and trimming whitespace — parses as a CIDR is accepted, and the parsed set is
that one network. -/
theorem load_lenient_normalization (l : List Char) (c : IpNetwork)
    (hnl : '\n' ∉ l)
    (h : IpNetwork.fromStr (trimChars (removeAllowSp
      (l.filter (fun ch => ch != ';')))) = some c) :
    loadParse l = {c} := by
  have h' : IpNetwork.fromStr (normalizeLine l) = some c := h
  have hl : l ≠ [] := by
    rintro rfl
    rw [show IpNetwork.fromStr (normalizeLine ([] : List Char)) = none from rfl] at h'
    exact Option.noConfusion h'
  have hne : normalizeLine l ≠ [] := by
    intro hh
    rw [hh, show IpNetwork.fromStr ([] : List Char) = none from rfl] at h'
    exact Option.noConfusion h'
  have hlines : rustLines l = [l] := by
    unfold rustLines
    rw [splitOnChar_no_sep '\n' l hnl]
    obtain ⟨ch, t, rfl⟩ := List.exists_cons_of_ne_nil hl
    rfl
  unfold loadParse
  rw [hlines]
  simp only [parseLines]
  rw [if_neg hne, h']
  show parseLines [] (insert c ∅) = {c}
  rfl

/-- Witness for C10: a bare CIDR with no `allow ` and no semicolon, and a line
with a repeated `allow ` and extra semicolons, are both accepted. -/
theorem load_lenient_normalization_witness :
    ('\n' ∉ ("10.0.0.0/24").data) ∧
    loadParse ("10.0.0.0/24").data = {sampleNetA} ∧
    ('\n' ∉ ("allow allow 10.0.0.0/24;;;").data) ∧
    loadParse ("allow allow 10.0.0.0/24;;;").data = {sampleNetA} :=
  ⟨by decide, load_lenient_normalization _ sampleNetA (by decide) (by decide),
    by decide, load_lenient_normalization _ sampleNetA (by decide) (by decide)⟩

end GithubNginxHooker
